import Mathlib

/-!
Verification of the catalog-resolution and format-preserving patch engine of
npm-check-updates (fork jakeboone02/npm-check-updates).

The development shallowly embeds the TypeScript sources:
  * getCurrentDependencies / getCatalogDependencies / isGreaterThanSafe
    (src/lib/getCurrentDependencies.ts),
  * the pure upgradeCatalogData with its YAML and JSON paths
    (content-based variant, and the jsonc-parser variant taking a file path),
  * the flattened upgradeCatalogData used by src/lib/processCatalogs.ts
    (the variant whose named-catalog scan enumerates the YAMLMap node's own
    properties),
  * the reference-collection and per-catalog update loop of processCatalogs,
  * readCatalogDependencies (src/lib/getAllPackages.ts / PackageInfo).

JavaScript objects are modelled as association lists in insertion order;
object-spread, filtering and key update follow JS semantics (one binding per
key in any object the program builds; lookup is first-match).

External libraries are not part of the repository and are modelled at their
interface: the semver library is a parameter assigning to a version-range
string its minimum satisfying version (none when the string is not a valid
range, e.g. a URL, tag or the catalog marker); the comment-preserving yaml
library is a parse/serialize pair around a structural document value; the
jsonc-parser library is a pair of a parsed-tree view (node presence at a
path) and a text-modification function.  Theorems quantify over these
parameters, adding only the libraries' documented contracts as hypotheses
where a claim needs them.
-/

/-! ## JavaScript object model -/

/-- A JavaScript object with string values: entries in insertion order. -/
abbrev Obj := List (String × String)

/-- JS property lookup: the (unique) binding of a key; `none` = `undefined`.
On lists built by object operations keys are unique, so first-match. -/
def objGet {α : Type} : List (String × α) → String → Option α
  | [], _ => none
  | e :: t, k => if e.1 = k then some e.2 else objGet t k

/-- JS property assignment to an existing key: the entry keeps its position. -/
def objSet {α : Type} (o : List (String × α)) (k : String) (v : α) : List (String × α) :=
  o.map (fun e => if e.1 = k then (e.1, v) else e)

/-- `filterObject` of src/lib/filterObject.ts: keep the entries whose
(key, value) satisfy the predicate, in order. -/
def filterObject {α : Type} (o : List (String × α)) (p : String → α → Bool) : List (String × α) :=
  o.filter (fun e => p e.1 e.2)

/-- JS object spread lhs-then-rhs: keys of the left object stay in place but
take the right object's value when it has one; new keys of the right object
are appended in its order. -/
def spread (a b : Obj) : Obj :=
  a.map (fun e => (e.1, (objGet b e.1).getD e.2)) ++
    b.filter (fun e => (objGet a e.1).isNone)

/-- The invariant every genuine JS object satisfies: one binding per key. -/
abbrev NodupKeys {α : Type} (o : List (String × α)) : Prop :=
  (o.map Prod.fst).Nodup

/-- JS String.prototype.startsWith, modelled on the character list (the
built-in byte-position String.startsWith does not reduce in the kernel). -/
def strStartsWith (s pre : String) : Bool := pre.data.isPrefixOf s.data

/-- JS truthiness of a possibly-undefined string: `undefined` and the empty
string are falsy. -/
def truthy : Option String → Bool
  | some s => !(decide (s = ""))
  | none => false

theorem objGet_nil {α : Type} (k : String) : objGet ([] : List (String × α)) k = none := rfl

theorem objGet_cons {α : Type} (e : String × α) (t : List (String × α)) (k : String) :
    objGet (e :: t) k = if e.1 = k then some e.2 else objGet t k := rfl

theorem objGet_append {α : Type} (a b : List (String × α)) (k : String) :
    objGet (a ++ b) k = match objGet a k with
      | some v => some v
      | none => objGet b k := by
  induction a with
  | nil => simp [objGet]
  | cons e t ih =>
      by_cases h : e.1 = k
      · simp [objGet, h]
      · simpa [objGet, h] using ih

theorem objGet_mapVal {α : Type} (o : List (String × α)) (f : String → α → α) (k : String) :
    objGet (o.map (fun e => (e.1, f e.1 e.2))) k = (objGet o k).map (f k) := by
  induction o with
  | nil => rfl
  | cons e t ih =>
      by_cases h : e.1 = k
      · simp [objGet, h]
      · simpa [objGet, h] using ih

theorem objGet_filter_of_pos {α : Type} (o : List (String × α)) (p : String × α → Bool)
    (k : String) (h : ∀ e ∈ o, e.1 = k → p e = true) :
    objGet (o.filter p) k = objGet o k := by
  induction o with
  | nil => rfl
  | cons e t ih =>
      by_cases hk : e.1 = k
      · have hp : p e = true := h e (List.mem_cons_self e t) hk
        simp [List.filter_cons, hp, objGet, hk]
      · have ht : objGet (t.filter p) k = objGet t k :=
          ih (fun e' he' => h e' (List.mem_cons_of_mem e he'))
        cases hp : p e <;> simp [List.filter_cons, hp, objGet, hk, ht]

theorem objGet_filter_of_neg {α : Type} (o : List (String × α)) (p : String × α → Bool)
    (k : String) (h : ∀ e ∈ o, e.1 = k → p e = false) :
    objGet (o.filter p) k = none := by
  induction o with
  | nil => rfl
  | cons e t ih =>
      have ht : objGet (t.filter p) k = none :=
        ih (fun e' he' => h e' (List.mem_cons_of_mem e he'))
      by_cases hk : e.1 = k
      · have hp : p e = false := h e (List.mem_cons_self e t) hk
        simp [List.filter_cons, hp, ht]
      · cases hp : p e <;> simp [List.filter_cons, hp, objGet, hk, ht]

theorem objGet_none_iff {α : Type} (o : List (String × α)) (k : String) :
    objGet o k = none ↔ k ∉ o.map Prod.fst := by
  induction o with
  | nil => simp [objGet]
  | cons e t ih =>
      by_cases h : e.1 = k
      · simp [objGet, h]
      · simp [objGet, h, ih, Ne.symm h]

/-- Lookup in a spread: the right object wins where it has the key. -/
theorem objGet_spread (a b : Obj) (k : String) :
    objGet (spread a b) k = match objGet b k with
      | some w => some w
      | none => objGet a k := by
  unfold spread
  rw [objGet_append]
  cases ha : objGet a k with
  | some v =>
      have hmap : objGet (a.map (fun e => (e.1, (objGet b e.1).getD e.2))) k
          = some ((objGet b k).getD v) := by
        rw [objGet_mapVal a (fun s w => (objGet b s).getD w) k, ha]
        rfl
      rw [hmap]
      cases hb : objGet b k <;> simp [hb]
  | none =>
      have hmap : objGet (a.map (fun e => (e.1, (objGet b e.1).getD e.2))) k = none := by
        rw [objGet_mapVal a (fun s w => (objGet b s).getD w) k, ha]
        rfl
      have hfil : objGet (b.filter (fun e => (objGet a e.1).isNone)) k = objGet b k := by
        refine objGet_filter_of_pos b _ k (fun e _ hk => ?_)
        rw [hk, ha]
        rfl
      rw [hmap, hfil]
      cases hb : objGet b k <;> simp

theorem objGet_filterObject_of_nodup {α : Type} (o : List (String × α))
    (p : String → α → Bool) (k : String) (hnd : NodupKeys o) :
    objGet (filterObject o p) k = match objGet o k with
      | some v => if p k v then some v else none
      | none => none := by
  induction o with
  | nil => rfl
  | cons e t ih =>
      have hndt : NodupKeys t := (List.nodup_cons.mp hnd).2
      have hknot : e.1 ∉ t.map Prod.fst := (List.nodup_cons.mp hnd).1
      have hfc : filterObject (e :: t) p
          = if p e.1 e.2 then e :: filterObject t p else filterObject t p := by
        simp [filterObject, List.filter_cons]
      by_cases hk : e.1 = k
      · subst hk
        have htnone : objGet (filterObject t p) e.1 = none :=
          objGet_filter_of_neg t _ e.1 (fun e' he' hk' =>
            absurd (hk' ▸ List.mem_map_of_mem Prod.fst he') hknot)
        rw [hfc]
        by_cases hp : p e.1 e.2 <;> simp [hp, objGet_cons, htnone]
      · have ht := ih hndt
        rw [hfc]
        by_cases hp : p e.1 e.2 <;> simp [hp, objGet_cons, hk, ht]

theorem objGet_mem {α : Type} {o : List (String × α)} {k : String} {v : α}
    (h : objGet o k = some v) : (k, v) ∈ o := by
  induction o with
  | nil => simp [objGet] at h
  | cons e t ih =>
      rw [objGet_cons] at h
      by_cases hk : e.1 = k
      · rw [if_pos hk] at h
        have he : e = (k, v) := by
          obtain ⟨a, b⟩ := e
          cases h
          cases hk
          rfl
        rw [show ((k, v) : String × α) = e from he.symm]
        exact List.mem_cons_self e t
      · rw [if_neg hk] at h
        exact List.mem_cons_of_mem e (ih h)

theorem keys_objSet {α : Type} (o : List (String × α)) (k : String) (v : α) :
    (objSet o k v).map Prod.fst = o.map Prod.fst := by
  unfold objSet
  rw [List.map_map]
  refine List.map_congr_left (fun e _ => ?_)
  by_cases h : e.1 = k <;> simp [h]

theorem objGet_objSet {α : Type} (o : List (String × α)) (k : String) (v : α) (k' : String) :
    objGet (objSet o k v) k' =
      if k' = k then (objGet o k).map (fun _ => v) else objGet o k' := by
  induction o with
  | nil => by_cases h : k' = k <;> simp [objSet, objGet, h]
  | cons e t ih =>
      have hcons : objSet (e :: t) k v
          = (if e.1 = k then (e.1, v) else e) :: objSet t k v := by
        simp [objSet]
      have hfst : ((if e.1 = k then (e.1, v) else e) : String × α).1 = e.1 := by
        by_cases h : e.1 = k <;> simp [h]
      rw [hcons, objGet_cons, hfst]
      by_cases h1 : e.1 = k'
      · rw [if_pos h1]
        by_cases h2 : e.1 = k
        · have hkk : k' = k := h1.symm.trans h2
          simp [h2, hkk, objGet_cons]
        · have hkk : ¬ k' = k := fun hh => h2 (h1.trans hh)
          simp [h2, hkk, objGet_cons, h1]
      · rw [if_neg h1, ih]
        by_cases h3 : k' = k
        · subst h3
          rw [if_pos rfl, if_pos rfl, objGet_cons, if_neg h1]
        · rw [if_neg h3, if_neg h3, objGet_cons, if_neg h1]

theorem objSet_self {α : Type} (o : List (String × α)) (k : String) (v : α)
    (h : ∀ e ∈ o, e.1 = k → e.2 = v) : objSet o k v = o := by
  unfold objSet
  have hmap : o.map (fun e => if e.1 = k then (e.1, v) else e) = o.map id :=
    List.map_congr_left (fun e he => by
      by_cases hk : e.1 = k
      · obtain ⟨a, b⟩ := e
        have hv : b = v := h (a, b) he hk
        simp only at hk
        subst hk hv
        simp
      · simp [hk])
  rw [hmap, List.map_id]

theorem objSet_objSet_same {α : Type} (o : List (String × α)) (k : String) (v : α) :
    objSet (objSet o k v) k v = objSet o k v := by
  unfold objSet
  rw [List.map_map]
  refine List.map_congr_left (fun e _ => ?_)
  by_cases h : e.1 = k <;> simp [h]

theorem objSet_comm {α : Type} (o : List (String × α)) (k k' : String) (v v' : α)
    (h : k ≠ k') : objSet (objSet o k v) k' v' = objSet (objSet o k' v') k v := by
  unfold objSet
  rw [List.map_map, List.map_map]
  refine List.map_congr_left (fun e _ => ?_)
  by_cases h1 : e.1 = k
  · simp [h1, h, Ne.symm h]
  · by_cases h2 : e.1 = k' <;> simp [h1, h2, Ne.symm h]

theorem nodupKeys_filterObject {α : Type} (o : List (String × α)) (p : String → α → Bool)
    (h : NodupKeys o) : NodupKeys (filterObject o p) :=
  List.Nodup.sublist (List.Sublist.map Prod.fst (List.filter_sublist o)) h

theorem nodupKeys_spread (a b : Obj) (ha : NodupKeys a) (hb : NodupKeys b) :
    NodupKeys (spread a b) := by
  have hfst : Prod.fst ∘ (fun e : String × String => (e.1, (objGet b e.1).getD e.2))
      = Prod.fst := funext (fun e => rfl)
  unfold spread NodupKeys
  rw [List.map_append, List.map_map, hfst, List.nodup_append]
  refine ⟨ha, List.Nodup.sublist (List.Sublist.map Prod.fst (List.filter_sublist b)) hb, ?_⟩
  intro x hx hy
  rcases List.mem_map.mp hy with ⟨e, he, hey⟩
  have hkeep : ((objGet a e.1).isNone : Bool) = true := (List.mem_filter.mp he).2
  have hnone : objGet a e.1 = none := Option.isNone_iff_eq_none.mp hkeep
  rw [← hey] at hx
  exact (objGet_none_iff a e.1).mp hnone hx

/-! ## getCurrentDependencies (src/lib/getCurrentDependencies.ts)

`isGreaterThanSafe` and the section-merging reduce.  The semver library is
abstracted by `minv : String → Option Nat`: `minv s = some n` models
"`semver.validRange(s)` holds and the minimum satisfying version of `s` has
rank `n`" (ranks compare as `semver.gt` compares minimum versions);
`minv s = none` models an invalid range (URL, git ref, tag, catalog marker),
for which `semver.validRange` is null. -/

/-- Returns true if spec1 is greater than spec2, ignoring invalid version
ranges (part_001 lines 12-18). -/
def isGreaterThanSafe (minv : String → Option Nat) (spec1 spec2 : String) : Bool :=
  match minv spec1, minv spec2 with
  | some v1, some v2 => decide (v2 < v1)
  | _, _ => false

/-- `isGreaterThanSafe(spec, accum[dep])` where the accumulator binding may be
`undefined`; `semver.validRange(undefined)` is null, so the result is false. -/
def isGreaterThanSafeOpt (minv : String → Option Nat) (spec1 : String) :
    Option String → Bool
  | some s => isGreaterThanSafe minv spec1 s
  | none => false

/-- The slice of a parsed package file the engine reads: its dependency
sections (an absent section is the empty object) and the packageManager pin. -/
structure Pkg where
  sections : String → Obj
  packageManager : Option String

/-- Parses the packageManager field into a single-entry object
(part_001 lines 20-25); `name@version` is split at the first `@`. -/
def parsePackageManager (pkg : Pkg) : Obj :=
  match pkg.packageManager with
  | none => []
  | some s => [((s.splitOn ("@")).headD (""), ((s.splitOn ("@")).drop 1).headD (""))]

/-- The section-merging reduce of getCurrentDependencies (part_001 lines
41-51): iterate the resolved dep sections, spreading each section filtered by
"not strictly greater than the value already accumulated".  The synthetic
packageManager section is spread unfiltered, as in the source. -/
def allDependencies (minv : String → Option Nat) (pkg : Pkg)
    (depSections : List String) : Obj :=
  depSections.foldl
    (fun accum depSection =>
      if depSection = ("packageManager") then spread accum (parsePackageManager pkg)
      else
        spread accum
          (filterObject (pkg.sections depSection)
            (fun dep spec => !(isGreaterThanSafeOpt minv spec (objGet accum dep)))))
    []

/-- getCurrentDependencies (part_001 lines 36-72): merge the sections, then
drop workspace-owned names and catalog references, then apply the
filter/reject predicate built from the options (an arbitrary predicate
parameter here, since filterAndReject is configuration-supplied). -/
def getCurrentDependencies (minv : String → Option Nat) (pkg : Pkg)
    (depSections : List String) (workspacePackages : List String)
    (filterPred : String → String → Bool) : Obj :=
  filterObject
    (filterObject (allDependencies minv pkg depSections)
      (fun name version => !(workspacePackages.contains name) && !(strStartsWith version ("catalog:"))))
    filterPred

/-- getCatalogDependencies (part_001 lines 81-112): collect, across the
sections, the entries whose spec starts with the catalog marker, then apply
the workspace and filter/reject filters. -/
def getCatalogDependencies (pkg : Pkg) (depSections : List String)
    (workspacePackages : List String) (filterPred : String → String → Bool) : Obj :=
  filterObject
    (filterObject
      (depSections.foldl
        (fun accum depSection =>
          spread accum
            (filterObject (pkg.sections depSection)
              (fun _ version => strStartsWith version ("catalog:"))))
        [])
      (fun name _ => !(workspacePackages.contains name)))
    filterPred

theorem spread_nil_left (b : Obj) : spread [] b = b := by
  unfold spread
  simp only [List.map_nil, List.nil_append]
  exact List.filter_eq_self.mpr (fun e _ => rfl)

/-- Merging two ordinary sections: the first becomes the accumulator, the
second is filtered against it and spread over it. -/
theorem allDeps_two_sections (minv : String → Option Nat) (pkg : Pkg)
    (n1 n2 : String) (h1 : n1 ≠ ("packageManager")) (h2 : n2 ≠ ("packageManager")) :
    allDependencies minv pkg [n1, n2] =
      spread (pkg.sections n1)
        (filterObject (pkg.sections n2)
          (fun dep spec => !(isGreaterThanSafeOpt minv spec (objGet (pkg.sections n1) dep)))) := by
  unfold allDependencies
  simp only [List.foldl_cons, List.foldl_nil, if_neg h1, if_neg h2]
  have hfil : filterObject (pkg.sections n1)
      (fun dep spec => !(isGreaterThanSafeOpt minv spec (objGet ([] : Obj) dep)))
      = pkg.sections n1 := by
    unfold filterObject
    exact List.filter_eq_self.mpr (fun e _ => rfl)
  rw [hfil, spread_nil_left]

/-- C1 — *Lowest-wins*: in a manifest where the same dependency name appears
in two scanned (ordinary, map-valued) sections with specs that both parse as
semantic-version ranges, the map returned by getCurrentDependencies binds the
name to the spec whose minimum satisfying version is lower, whichever order
the two sections are iterated in.  The side hypotheses state the claim's
implicit context: the name is not workspace-owned, survives the
filter/reject predicate, and the winning spec is not a catalog marker (a
string that parses as a semver range never is). -/
theorem getCurrentDependencies_lowest_wins (minv : String → Option Nat) (pkg : Pkg)
    (n1 n2 dep a b : String) (va vb : Nat) (ws : List String)
    (p : String → String → Bool)
    (h1 : n1 ≠ ("packageManager")) (h2 : n2 ≠ ("packageManager"))
    (hs1 : objGet (pkg.sections n1) dep = some a)
    (hs2 : objGet (pkg.sections n2) dep = some b)
    (hn1 : NodupKeys (pkg.sections n1)) (hn2 : NodupKeys (pkg.sections n2))
    (hva : minv a = some va) (hvb : minv b = some vb) (hlt : va < vb)
    (hcat : strStartsWith a ("catalog:") = false)
    (hws : ws.contains dep = false)
    (hp : p dep a = true) :
    objGet (getCurrentDependencies minv pkg [n1, n2] ws p) dep = some a ∧
    objGet (getCurrentDependencies minv pkg [n2, n1] ws p) dep = some a := by
  have hmerged1 : objGet (allDependencies minv pkg [n1, n2]) dep = some a := by
    rw [allDeps_two_sections minv pkg n1 n2 h1 h2, objGet_spread]
    have hgt : isGreaterThanSafeOpt minv b (objGet (pkg.sections n1) dep) = true := by
      rw [hs1]
      simp [isGreaterThanSafeOpt, isGreaterThanSafe, hva, hvb, hlt]
    have hf : objGet (filterObject (pkg.sections n2)
        (fun d s => !(isGreaterThanSafeOpt minv s (objGet (pkg.sections n1) d)))) dep
        = none := by
      rw [objGet_filterObject_of_nodup _ _ _ hn2, hs2]
      simp [hgt]
    rw [hf]
    simpa using hs1
  have hmerged2 : objGet (allDependencies minv pkg [n2, n1]) dep = some a := by
    rw [allDeps_two_sections minv pkg n2 n1 h2 h1, objGet_spread]
    have hngt : isGreaterThanSafeOpt minv a (objGet (pkg.sections n2) dep) = false := by
      rw [hs2]
      simp [isGreaterThanSafeOpt, isGreaterThanSafe, hva, hvb, Nat.lt_asymm hlt]
    have hf : objGet (filterObject (pkg.sections n1)
        (fun d s => !(isGreaterThanSafeOpt minv s (objGet (pkg.sections n2) d)))) dep
        = some a := by
      rw [objGet_filterObject_of_nodup _ _ _ hn1, hs1]
      simp [hngt]
    rw [hf]
  have hnd1 : NodupKeys (allDependencies minv pkg [n1, n2]) := by
    rw [allDeps_two_sections minv pkg n1 n2 h1 h2]
    exact nodupKeys_spread _ _ hn1 (nodupKeys_filterObject _ _ hn2)
  have hnd2 : NodupKeys (allDependencies minv pkg [n2, n1]) := by
    rw [allDeps_two_sections minv pkg n2 n1 h2 h1]
    exact nodupKeys_spread _ _ hn2 (nodupKeys_filterObject _ _ hn1)
  constructor
  · unfold getCurrentDependencies
    rw [objGet_filterObject_of_nodup _ _ _
        (nodupKeys_filterObject _ _ hnd1),
      objGet_filterObject_of_nodup _ _ _ hnd1, hmerged1]
    have hmem : dep ∉ ws := by
      simpa using hws
    simp [hcat, hmem, hp]
  · unfold getCurrentDependencies
    rw [objGet_filterObject_of_nodup _ _ _
        (nodupKeys_filterObject _ _ hnd2),
      objGet_filterObject_of_nodup _ _ _ hnd2, hmerged2]
    have hmem : dep ∉ ws := by
      simpa using hws
    simp [hcat, hmem, hp]

/-- A concrete semver model for witnesses: two caret ranges with distinct
minimum versions; everything else is not a valid range. -/
def minvW : String → Option Nat :=
  fun s => if s = ("^17.0.0") then some 17 else if s = ("^18.0.0") then some 18 else none

/-- A concrete manifest for witnesses: react pinned lower in dependencies
than in devDependencies. -/
def pkgW : Pkg :=
  ⟨fun n =>
    if n = ("dependencies") then [(("react"), ("^17.0.0"))]
    else if n = ("devDependencies") then [(("react"), ("^18.0.0"))]
    else [], none⟩

theorem getCurrentDependencies_lowest_wins_witness :
    objGet (getCurrentDependencies minvW pkgW [("dependencies"), ("devDependencies")] []
      (fun _ _ => true)) ("react") = some ("^17.0.0") ∧
    objGet (getCurrentDependencies minvW pkgW [("devDependencies"), ("dependencies")] []
      (fun _ _ => true)) ("react") = some ("^17.0.0") := by
  have h := getCurrentDependencies_lowest_wins minvW pkgW ("dependencies")
    ("devDependencies") ("react") ("^17.0.0") ("^18.0.0") 17 18 []
    (fun _ _ => true) (by decide) (by decide) (by decide) (by decide)
    (by decide) (by decide) (by decide) (by decide) (by decide) (by decide)
    (by decide) rfl
  exact h

/-- The semver model for the C2 counterexample: one caret range is valid,
the URL spec is not a valid range (incomparable). -/
def minvEx : String → Option Nat :=
  fun s => if s = ("^1.0.0") then some 1 else none

/-- The manifest for the C2 counterexample: dep1 is a caret range in
dependencies and a URL (not a semver range) in devDependencies. -/
def pkgEx : Pkg :=
  ⟨fun n =>
    if n = ("dependencies") then [(("dep1"), ("^1.0.0"))]
    else if n = ("devDependencies") then [(("dep1"), ("https://example.com/dep1.tgz"))]
    else [], none⟩

/-- C2 counterexample — the claim says an incomparable later spec keeps the
first-seen value; the code keeps the LATER value: with `^1.0.0` first and a
URL second, getCurrentDependencies returns the URL, not the first-seen range
(the merge overwrites whenever the later spec is NOT strictly greater, and an
invalid range never is). -/
theorem getCurrentDependencies_keeps_later_incomparable_cex :
    objGet (getCurrentDependencies minvEx pkgEx [("dependencies"), ("devDependencies")] []
      (fun _ _ => true)) ("dep1") = some ("https://example.com/dep1.tgz") ∧
    ("https://example.com/dep1.tgz") ≠ ("^1.0.0") := by
  constructor
  · decide
  · decide

/-- C2 amended — during section merging, a dependency already present in the
accumulator is OVERWRITTEN by a later spec whenever that spec is not
strictly greater per isGreaterThanSafe: ties and incomparable pairs take the
later value; only a strictly greater later spec keeps the first-seen one. -/
theorem allDependencies_replaces_unless_strictly_greater
    (minv : String → Option Nat) (pkg : Pkg) (n1 n2 dep a b : String)
    (h1 : n1 ≠ ("packageManager")) (h2 : n2 ≠ ("packageManager"))
    (hs1 : objGet (pkg.sections n1) dep = some a)
    (hs2 : objGet (pkg.sections n2) dep = some b)
    (hn2 : NodupKeys (pkg.sections n2)) :
    objGet (allDependencies minv pkg [n1, n2]) dep =
      some (if isGreaterThanSafe minv b a then a else b) := by
  rw [allDeps_two_sections minv pkg n1 n2 h1 h2, objGet_spread]
  have hf : objGet (filterObject (pkg.sections n2)
      (fun d s => !(isGreaterThanSafeOpt minv s (objGet (pkg.sections n1) d)))) dep
      = if isGreaterThanSafe minv b a then none else some b := by
    rw [objGet_filterObject_of_nodup _ _ _ hn2, hs2]
    simp only [isGreaterThanSafeOpt, hs1]
    cases hgt : isGreaterThanSafe minv b a <;> simp [hgt]
  rw [hf]
  cases hgt : isGreaterThanSafe minv b a <;> simp [hgt, hs1]

/-- A tie in minimum satisfying versions for the amended-C2 witness: both
specs rank 10, the strings differ. -/
def minvTie : String → Option Nat :=
  fun s => if s = ("1.x") then some 10 else if s = ("^1.0.0") then some 10 else none

/-- The manifest for the amended-C2 witness. -/
def pkgTie : Pkg :=
  ⟨fun n =>
    if n = ("dependencies") then [(("lodash"), ("1.x"))]
    else if n = ("devDependencies") then [(("lodash"), ("^1.0.0"))]
    else [], none⟩

theorem allDependencies_replaces_unless_strictly_greater_witness :
    objGet (allDependencies minvTie pkgTie [("dependencies"), ("devDependencies")])
      ("lodash") = some (if isGreaterThanSafe minvTie ("^1.0.0") ("1.x")
        then ("1.x") else ("^1.0.0")) := by
  exact allDependencies_replaces_unless_strictly_greater minvTie pkgTie
    ("dependencies") ("devDependencies") ("lodash") ("1.x") ("^1.0.0")
    (by decide) (by decide) (by decide) (by decide) (by decide)

/-- C6 — *Catalog exclusion*: whatever the semver model, manifest, section
list, workspace-owned names and filter options, no entry of the map returned
by getCurrentDependencies has a spec starting with the catalog-reference
marker `catalog:`; such entries are dropped by the dedicated filter. -/
theorem getCurrentDependencies_no_catalog_specs (minv : String → Option Nat)
    (pkg : Pkg) (depSections : List String) (ws : List String)
    (p : String → String → Bool) (dep spec : String)
    (h : objGet (getCurrentDependencies minv pkg depSections ws p) dep = some spec) :
    strStartsWith spec ("catalog:") = false := by
  have hmem := objGet_mem h
  simp only [getCurrentDependencies, filterObject] at hmem
  have hmem2 := (List.mem_filter.mp hmem).1
  have hq := (List.mem_filter.mp hmem2).2
  simp only [Bool.and_eq_true] at hq
  simpa using hq.2

theorem getCurrentDependencies_no_catalog_specs_witness :
    objGet (getCurrentDependencies minvW pkgW [("dependencies")] [] (fun _ _ => true))
      ("react") = some ("^17.0.0") ∧
    strStartsWith ("^17.0.0") ("catalog:") = false :=
  ⟨by rfl,
    getCurrentDependencies_no_catalog_specs minvW pkgW [("dependencies")] []
      (fun _ _ => true) ("react") ("^17.0.0") (by rfl)⟩

/-! ## The catalog document models

A parsed comment-preserving YAML document, restricted to the nodes the
engine reads and writes: the flat `catalog` mapping and the named `catalogs`
mappings.  `setIn` is only ever called under a `getIn` guard in the sources,
so updates never create nodes and are modelled as key updates. -/

/-- The catalog-bearing slice of a parsed workspace document. -/
structure YDoc where
  catalog : Obj
  catalogs : List (String × Obj)
deriving DecidableEq, Repr

/-- `doc.getIn(['catalogs', n, dep])`. -/
def yGetNamed (doc : YDoc) (n dep : String) : Option String :=
  match objGet doc.catalogs n with
  | some c => objGet c dep
  | none => none

/-- `doc.setIn(['catalogs', n, dep], v)` on an existing node. -/
def ySetNamed (doc : YDoc) (n dep v : String) : YDoc :=
  { doc with catalogs :=
      doc.catalogs.map (fun c => (c.1, if c.1 = n then objSet c.2 dep v else c.2)) }

theorem ySetNamed_self (doc : YDoc) (n dep v : String)
    (h : ∀ c ∈ doc.catalogs, c.1 = n → ∀ e ∈ c.2, e.1 = dep → e.2 = v) :
    ySetNamed doc n dep v = doc := by
  unfold ySetNamed
  have hmap : doc.catalogs.map (fun c => (c.1, if c.1 = n then objSet c.2 dep v else c.2))
      = doc.catalogs.map id :=
    List.map_congr_left (fun c hc => by
      by_cases hn : c.1 = n
      · rw [if_pos hn, objSet_self c.2 dep v (h c hc hn)]
        simp
      · rw [if_neg hn]
        simp)
  rw [hmap, List.map_id]

/-- The jsonc-parser view of a parsed JSON document: node presence at a
path, plus whether the `workspaces` node is a non-array object. -/
structure JView where
  has : List String → Bool
  wsNotArray : Bool

/-! ## The pure upgradeCatalogData (content-based variant, part_004) -/

namespace PureCatalog

/-- `fileData.workspaces && type !== array && (workspaces.catalog ||
workspaces.catalogs)` (part_004 lines 56-60). -/
def hasWorkspacesCatalogs (root : JView) : Bool :=
  root.has [("workspaces")] && root.wsNotArray &&
    (root.has [("workspaces"), ("catalog")] || root.has [("workspaces"), ("catalogs")])

/-- `catalogName ? ['catalogs', catalogName, dep] : ['catalog', dep]`
(part_004 line 68); the empty string is falsy in JS. -/
def keyPathOf (catalogName dep : String) : List String :=
  if catalogName = ("") then [("catalog"), dep] else [("catalogs"), catalogName, dep]

/-- upgradeYamlCatalogData (part_004 lines 10-42): for each upgraded entry
whose dep is truthy in `current`, write the new version at each EXISTING
catalog path — both `catalog.dep` and `catalogs.default.dep` for the default
catalog, `catalogs.<name>.dep` otherwise. -/
def upgradeYamlCatalogData (doc : YDoc) (catalogName : String)
    (current : String → Option String) (upgraded : List (String × String)) : YDoc :=
  (upgraded.filter (fun e => truthy (current e.1))).foldl
    (fun d e =>
      if catalogName = ("default") then
        let d1 := if (objGet d.catalog e.1).isSome
          then { d with catalog := objSet d.catalog e.1 e.2 } else d
        if (yGetNamed d1 ("default") e.1).isSome
          then ySetNamed d1 ("default") e.1 e.2 else d1
      else
        if (yGetNamed d catalogName e.1).isSome
          then ySetNamed d catalogName e.1 e.2 else d)
    doc

/-- upgradeJsonCatalogData (part_004 lines 49-84).  Mirrors the source
exactly, including that the second (workspaces) patch is computed from and
applied to `content`, not to `endResult` — when both branches fire, the
first edit is discarded. -/
def upgradeJsonCatalogData {α : Type} (parseTree : α → JView)
    (jmodify : α → List String → String → α) (fileContent : α) (catalogName : String)
    (current : String → Option String) (upgraded : List (String × String)) : α :=
  let fileRoot := parseTree fileContent
  let hasWs := hasWorkspacesCatalogs fileRoot
  upgraded.foldl
    (fun content e =>
      if current e.1 = some e.2 then content
      else
        let keyPath := keyPathOf catalogName e.1
        let endResult := if fileRoot.has keyPath then jmodify content keyPath e.2 else content
        if hasWs && fileRoot.has (("workspaces") :: keyPath) then
          jmodify content (("workspaces") :: keyPath) e.2
        else endResult)
    fileContent

/-- upgradeCatalogData (part_004 lines 97-111): dispatch on the extension. -/
def upgradeCatalogData {α : Type} (parseTree : α → JView)
    (jmodify : α → List String → String → α) (parseYaml : α → YDoc)
    (serializeYaml : YDoc → α) (fileContent : α) (fileExtension catalogName : String)
    (current : String → Option String) (upgraded : List (String × String)) :
    Except String α :=
  if fileExtension = (".yaml") ∨ fileExtension = (".yml") then
    Except.ok (serializeYaml
      (upgradeYamlCatalogData (parseYaml fileContent) catalogName current upgraded))
  else if fileExtension = (".json") then
    Except.ok (upgradeJsonCatalogData parseTree jmodify fileContent catalogName current upgraded)
  else
    Except.error (("Unsupported catalog file type: ") ++ fileExtension)

end PureCatalog

/-- The YAML path is a no-op on the parsed document when the single edit
operation's new version equals the value already stored at every catalog
path it can touch. -/
theorem upgradeYamlCatalogData_noop (doc : YDoc) (catalogName dep v : String)
    (current : String → Option String)
    (hA : ∀ e ∈ doc.catalog, e.1 = dep → e.2 = v)
    (hB : ∀ c ∈ doc.catalogs, (c.1 = ("default") ∨ c.1 = catalogName) →
      ∀ e ∈ c.2, e.1 = dep → e.2 = v) :
    PureCatalog.upgradeYamlCatalogData doc catalogName current [(dep, v)] = doc := by
  unfold PureCatalog.upgradeYamlCatalogData
  cases ht : truthy (current dep) with
  | false => simp [List.filter_cons, ht]
  | true =>
    simp only [List.filter_cons, ht, if_pos, List.filter_nil, List.foldl_cons, List.foldl_nil]
    have hset : objSet doc.catalog dep v = doc.catalog := objSet_self _ _ _ hA
    have hsetD : ySetNamed doc ("default") dep v = doc :=
      ySetNamed_self doc ("default") dep v (fun c hc hn => hB c hc (Or.inl hn))
    have hsetN : ySetNamed doc catalogName dep v = doc :=
      ySetNamed_self doc catalogName dep v (fun c hc hn => hB c hc (Or.inr hn))
    by_cases hdef : catalogName = ("default")
    · have hd1 : (if (objGet doc.catalog dep).isSome
          then { doc with catalog := objSet doc.catalog dep v } else doc) = doc := by
        cases hg : (objGet doc.catalog dep).isSome <;> simp [hset]
      rw [if_pos hdef]
      simp only [hd1]
      cases hg2 : (yGetNamed doc ("default") dep).isSome <;> simp [hdef ▸ hsetD, hsetD]
    · rw [if_neg hdef]
      cases hg : (yGetNamed doc catalogName dep).isSome <;> simp [hsetN]

/-- C7 — *No-op purity*: on every format path of the pure upgradeCatalogData
(part_004), an edit operation whose old version equals its new version never
changes the output text.  JSON path: the `current[dep] === upgraded[dep]`
check skips the operation before any edit, for any jsonc-parser behaviour.
YAML path: every existing catalog node for the dep already holds the new
value, so each `setIn` rewrites the value it read and the document —
hence its serialization — is unchanged (`hrt` is the yaml library's
format-preserving round-trip at this input). -/
theorem upgradeCatalogData_noop {α : Type} (parseTree : α → JView)
    (jmodify : α → List String → String → α) (parseYaml : α → YDoc)
    (serializeYaml : YDoc → α) (fileContent : α) (catalogName dep v : String)
    (current : String → Option String)
    (hcur : current dep = some v)
    (hA : ∀ e ∈ (parseYaml fileContent).catalog, e.1 = dep → e.2 = v)
    (hB : ∀ c ∈ (parseYaml fileContent).catalogs,
      (c.1 = ("default") ∨ c.1 = catalogName) → ∀ e ∈ c.2, e.1 = dep → e.2 = v)
    (hrt : serializeYaml (parseYaml fileContent) = fileContent) :
    PureCatalog.upgradeCatalogData parseTree jmodify parseYaml serializeYaml fileContent
      (".yaml") catalogName current [(dep, v)] = Except.ok fileContent ∧
    PureCatalog.upgradeCatalogData parseTree jmodify parseYaml serializeYaml fileContent
      (".yml") catalogName current [(dep, v)] = Except.ok fileContent ∧
    PureCatalog.upgradeCatalogData parseTree jmodify parseYaml serializeYaml fileContent
      (".json") catalogName current [(dep, v)] = Except.ok fileContent := by
  have hyaml := upgradeYamlCatalogData_noop (parseYaml fileContent) catalogName dep v
    current hA hB
  have hjson : PureCatalog.upgradeJsonCatalogData parseTree jmodify fileContent
      catalogName current [(dep, v)] = fileContent := by
    unfold PureCatalog.upgradeJsonCatalogData
    simp [hcur]
  refine ⟨?_, ?_, ?_⟩
  · unfold PureCatalog.upgradeCatalogData
    rw [if_pos (Or.inl rfl), hyaml, hrt]
  · unfold PureCatalog.upgradeCatalogData
    rw [if_pos (Or.inr rfl), hyaml, hrt]
  · unfold PureCatalog.upgradeCatalogData
    rw [if_neg (by decide), if_pos rfl, hjson]

/-- The parsed document for the C7 witness: lodash already at the new
version in both the flat catalog and catalogs.default. -/
def ydocW : YDoc :=
  ⟨[(("lodash"), ("4.17.21"))], [(("default"), [(("lodash"), ("4.17.21"))])]⟩

theorem upgradeCatalogData_noop_witness :
    (fun s => if s = ("lodash") then some ("4.17.21") else none) ("lodash")
        = some ("4.17.21") ∧
    PureCatalog.upgradeCatalogData (fun _ : String => JView.mk (fun _ => false) false)
      (fun c _ _ => c ++ ("X")) (fun _ => ydocW) (fun _ => ("catalog text"))
      ("catalog text") (".yaml") ("default")
      (fun s => if s = ("lodash") then some ("4.17.21") else none)
      [(("lodash"), ("4.17.21"))] = Except.ok ("catalog text") ∧
    PureCatalog.upgradeCatalogData (fun _ : String => JView.mk (fun _ => false) false)
      (fun c _ _ => c ++ ("X")) (fun _ => ydocW) (fun _ => ("catalog text"))
      ("catalog text") (".json") ("default")
      (fun s => if s = ("lodash") then some ("4.17.21") else none)
      [(("lodash"), ("4.17.21"))] = Except.ok ("catalog text") := by
  have h := upgradeCatalogData_noop (fun _ : String => JView.mk (fun _ => false) false)
    (fun c _ _ => c ++ ("X")) (fun _ => ydocW) (fun _ => ("catalog text"))
    ("catalog text") ("default") ("lodash") ("4.17.21")
    (fun s => if s = ("lodash") then some ("4.17.21") else none)
    (by decide) (by decide) (by decide) rfl
  exact ⟨by decide, h.1, h.2.2⟩

/-- C10 — in part_004, the JSON path's only value check is
`current[dep] !== upgraded[dep]`: a dep absent from `current` whose path
exists in the document is still rewritten; the YAML path first filters on
`current[dep]`, so the same dep leaves the document untouched there. -/
theorem upgradeCatalogData_json_rewrites_absent_current {α : Type}
    (parseTree : α → JView) (jmodify : α → List String → String → α)
    (fileContent : α) (catalogName dep v : String)
    (current : String → Option String) (doc : YDoc)
    (hcur : current dep = none)
    (hws : PureCatalog.hasWorkspacesCatalogs (parseTree fileContent) = false)
    (hpath : (parseTree fileContent).has (PureCatalog.keyPathOf catalogName dep) = true) :
    PureCatalog.upgradeJsonCatalogData parseTree jmodify fileContent catalogName current
      [(dep, v)] = jmodify fileContent (PureCatalog.keyPathOf catalogName dep) v ∧
    PureCatalog.upgradeYamlCatalogData doc catalogName current [(dep, v)] = doc := by
  constructor
  · unfold PureCatalog.upgradeJsonCatalogData
    simp [hcur, hws, hpath]
  · unfold PureCatalog.upgradeYamlCatalogData
    simp [List.filter_cons, hcur, truthy]

theorem upgradeCatalogData_json_rewrites_absent_current_witness :
    PureCatalog.upgradeJsonCatalogData
      (fun _ : String => JView.mk (fun p => p == [("catalog"), ("lodash")]) false)
      (fun c _ w => c ++ ("|") ++ w) ("base") ("")
      (fun _ => none) [(("lodash"), ("4.17.21"))] = ("base|4.17.21") ∧
    PureCatalog.upgradeYamlCatalogData ydocW ("") (fun _ => none)
      [(("lodash"), ("4.17.21"))] = ydocW := by
  have h := upgradeCatalogData_json_rewrites_absent_current
    (fun _ : String => JView.mk (fun p => p == [("catalog"), ("lodash")]) false)
    (fun c _ w => c ++ ("|") ++ w) ("base") ("") ("lodash") ("4.17.21")
    (fun _ => none) ydocW rfl (by decide) (by decide)
  exact ⟨h.1.trans (by decide), h.2⟩

/-! ## The file-path upgradeCatalogData used with processCatalogs (part_002) -/

namespace Catalog2

/-- upgradeJsonCatalogData (part_002 lines 52-92).  `catalogName === 'default'`
selects the flat catalog path; the workspaces guards distinguish
`workspaces.catalog` (for default) from `workspaces.catalogs` (for named).
As in part_004, the workspaces patch is computed from and applied to
`content`, not to `endResult`: when both locations exist, the root edit is
discarded. -/
def upgradeJsonCatalogData {α : Type} (parseTree : α → JView)
    (jmodify : α → List String → String → α) (fileContent : α) (catalogName : String)
    (current : String → Option String) (upgraded : List (String × String)) : α :=
  let fileRoot := parseTree fileContent
  let hasWsCatalog := fileRoot.has [("workspaces")] && fileRoot.wsNotArray
    && fileRoot.has [("workspaces"), ("catalog")]
  let hasWsCatalogs := fileRoot.has [("workspaces")] && fileRoot.wsNotArray
    && fileRoot.has [("workspaces"), ("catalogs")]
  upgraded.foldl
    (fun content e =>
      if current e.1 = some e.2 then content
      else
        let keyPath := if catalogName = ("default")
          then [("catalog"), e.1] else [("catalogs"), catalogName, e.1]
        let endResult := if fileRoot.has keyPath then jmodify content keyPath e.2 else content
        if ((hasWsCatalog && decide (catalogName = ("default"))) ||
            (hasWsCatalogs && !(decide (catalogName = ("default"))))) &&
            fileRoot.has (("workspaces") :: keyPath) then
          jmodify content (("workspaces") :: keyPath) e.2
        else endResult)
    fileContent

end Catalog2

/-- A concrete JSON catalog document for exercising the JSON patch path: a
root `catalog` object and a `workspaces.catalog` object. -/
structure JDocC where
  catalog : Obj
  wsCatalog : Obj
deriving DecidableEq, Repr

/-- The jsonc-parser tree view of a `JDocC`. -/
def jdocView (d : JDocC) : JView :=
  ⟨fun path =>
    match path with
    | [a] => a == ("workspaces")
    | [a, b] =>
        if a = ("catalog") then (objGet d.catalog b).isSome
        else a == ("workspaces") && b == ("catalog")
    | [a, b, c] => a == ("workspaces") && b == ("catalog") && (objGet d.wsCatalog c).isSome
    | _ => false, true⟩

/-- jsonc-parser `modify` + `applyEdits` on a `JDocC`: replace the value at
an existing path. -/
def jdocModify (d : JDocC) (path : List String) (v : String) : JDocC :=
  match path with
  | [a, b] => if a = ("catalog") then { d with catalog := objSet d.catalog b v } else d
  | [a, b, c] =>
      if a = ("workspaces") && b = ("catalog")
        then { d with wsCatalog := objSet d.wsCatalog c v } else d
  | _ => d

/-- The C5 failing input: foo at 1.0.0 in both `catalog` and
`workspaces.catalog`. -/
def jdocC5 : JDocC := ⟨[(("foo"), ("1.0.0"))], [(("foo"), ("1.0.0"))]⟩

/-- C5 — claimed: a single default-catalog edit updates both `catalog.foo`
and `workspaces.catalog.foo`.  The code computes the root edit into
`endResult` but then applies the workspaces edit to the PRE-EDIT content,
discarding the root edit: only `workspaces.catalog.foo` is rewritten, the
root entry keeps the old version. -/
theorem upgradeJsonCatalogData_dual_location_bug :
    Catalog2.upgradeJsonCatalogData jdocView jdocModify jdocC5 ("default")
      (fun s => if s = ("foo") then some ("1.0.0") else none)
      [(("foo"), ("2.0.0"))]
    = ⟨[(("foo"), ("1.0.0"))], [(("foo"), ("2.0.0"))]⟩ := by
  decide

/-! ## The flattened upgradeCatalogData of src/lib/upgradeCatalogData.ts -/

namespace LibCatalog

/-- upgradeYamlCatalogData (src/lib/upgradeCatalogData.ts lines 18-60).
For each upgraded dep truthy in `current`, the source first iterates
`Object.entries(catalogsNode)` where `catalogsNode = doc.getIn(['catalogs'])`.
The yaml library returns a collection intact as a YAMLMap NODE, so the
enumerated own properties are the node's internals (`items`, `range`, ...)
with their JS values — never (catalogName, plain mapping) pairs; they are
passed in here as `catalogsNodeProps`, each with its JS property-lookup
function, and the loop checks `(value)[dep]` for truthiness.  On a match the
source would `setIn(['catalogs', propName, dep])` and return (modelled as
the named update; under the yaml library's node layout no internal property
maps a dependency name to a truthy value, so the branch never fires).
Otherwise the possible paths `catalogs.default.dep` then `catalog.dep` are
tried in order, writing the first one that exists. -/
def upgradeYamlCatalogData (catalogsNodeProps : List (String × (String → Option String)))
    (doc : YDoc) (current : String → Option String)
    (upgraded : List (String × String)) : YDoc :=
  (upgraded.filter (fun e => truthy (current e.1))).foldl
    (fun d e =>
      match catalogsNodeProps.find? (fun c => truthy (c.2 e.1)) with
      | some c => ySetNamed d c.1 e.1 e.2
      | none =>
          if (yGetNamed d ("default") e.1).isSome then ySetNamed d ("default") e.1 e.2
          else if (objGet d.catalog e.1).isSome
            then { d with catalog := objSet d.catalog e.1 e.2 } else d)
    doc

end LibCatalog

/-- The C9 failing input: named catalogs `web` and `mobile`, both defining
axios at 1.1.0; no `catalogs.default` entry and no flat `catalog` node. -/
def c9doc : YDoc :=
  ⟨[], [(("web"), [(("axios"), ("1.1.0"))]), (("mobile"), [(("axios"), ("1.1.0"))])]⟩

/-- C9 — claimed (and intended, per the spec scenario and the code's own
"Find the catalog that contains this dependency" comment): with both named
catalogs defining axios and only mobile consumers, `catalogs.mobile.axios`
is rewritten to the desired version and `catalogs.web.axios` is untouched.
In fact the named-catalog scan enumerates the YAMLMap node's own
properties, which are node internals that never map a dependency name to a
truthy value (`hprops`), so it never matches; the fallback paths
`catalogs.default.axios` and `catalog.axios` do not exist in this
document; the function returns the document unchanged.  In particular
`catalogs.mobile.axios` stays at 1.1.0 instead of being rewritten
(`catalogs.web.axios` is indeed untouched). -/
theorem upgradeYamlCatalogData_scenario_no_rewrite
    (catalogsNodeProps : List (String × (String → Option String)))
    (hprops : ∀ c ∈ catalogsNodeProps, truthy (c.2 ("axios")) = false) :
    LibCatalog.upgradeYamlCatalogData catalogsNodeProps c9doc
      (fun s => if s = ("axios") then some ("1.1.0") else none)
      [(("axios"), ("1.2.0"))] = c9doc := by
  unfold LibCatalog.upgradeYamlCatalogData
  have hfind : catalogsNodeProps.find? (fun c => truthy (c.2 ("axios"))) = none :=
    List.find?_eq_none.mpr (fun c hc => by simp [hprops c hc])
  have ht : truthy (some ("1.1.0")) = true := by decide
  have h1 : (yGetNamed c9doc ("default") ("axios")).isSome = false := by decide
  have h2 : (objGet c9doc.catalog ("axios")).isSome = false := by decide
  simp [List.filter_cons, List.foldl_cons, List.foldl_nil, ht, hfind, h1, h2]

theorem upgradeYamlCatalogData_scenario_no_rewrite_witness :
    LibCatalog.upgradeYamlCatalogData
      [(("items"), fun _ => none), (("range"), fun _ => none)] c9doc
      (fun s => if s = ("axios") then some ("1.1.0") else none)
      [(("axios"), ("1.2.0"))] = c9doc := by
  exact upgradeYamlCatalogData_scenario_no_rewrite
    [(("items"), fun _ => none), (("range"), fun _ => none)] (by decide)

/-! ## processCatalogs (part_003) and readCatalogDependencies (PackageInfo) -/

namespace Proc3

/-- A file-system access to the catalog file. -/
inductive FileEvent
  | read
  | write
deriving DecidableEq, Repr

/-- The file accesses of the update phase of processCatalogs (part_003 lines
104-123): one read of the catalog file up front (line 107, unused), then —
for each catalog with upgrades — the path-based upgradeCatalogData
(part_002) re-reads the file and the loop writes it back before the next
iteration. -/
def catalogUpdateEvents (upgradedCatalogDeps : List (String × Obj)) : List FileEvent :=
  FileEvent.read ::
    upgradedCatalogDeps.flatMap
      (fun e => if e.2.isEmpty then [] else [FileEvent.read, FileEvent.write])

/-- Number of writes of the catalog file in one invocation. -/
def writeCount (events : List FileEvent) : Nat :=
  (events.filter (fun e => match e with
    | FileEvent.write => true
    | FileEvent.read => false)).length

/-- `catalogRef.replace('catalog:', '')` on a spec that starts with the
marker: the first occurrence is the prefix, so drop it. -/
def stripCatalogPrefixOf (s : String) : String :=
  if strStartsWith s ("catalog:") then String.mk (s.data.drop 8) else s

/-- `catalogReferences[catalogName].add(pkgName)` with lazy initialisation
(part_003 lines 35-38); a JS Set keeps insertion order and deduplicates. -/
def addCatalogReference (refs : List (String × List String))
    (catalogName pkgName : String) : List (String × List String) :=
  match objGet refs catalogName with
  | none => refs ++ [(catalogName, [pkgName])]
  | some s => objSet refs catalogName (if s.contains pkgName then s else s ++ [pkgName])

/-- Collect all catalog references across all packages (part_003 lines
27-40): for each package's catalog dependencies, group package names by the
catalog name extracted from the `catalog:` reference. -/
def collectCatalogReferences (pkgs : List Pkg) (depSections : List String)
    (workspacePackages : List String) (filterPred : String → String → Bool) :
    List (String × List String) :=
  pkgs.foldl
    (fun refs pkg =>
      (getCatalogDependencies pkg depSections workspacePackages filterPred).foldl
        (fun refs2 e => addCatalogReference refs2 (stripCatalogPrefixOf e.2) e.1) refs)
    []

/-- The upgraded-catalog computation of processCatalogs (part_003 lines
47-70): for each referenced catalog name, look up
`catalogDependencies['catalog:' + catalogName]`, keep the referenced deps
that are truthy in it, and ask the resolver (upgradePackageDefinitions,
modelled as `upgradeFn`) for upgrades; empty results are dropped. -/
def computeUpgradedCatalogDeps (catalogDependencies : List (String × Obj))
    (upgradeFn : Obj → Obj) (catalogReferences : List (String × List String)) :
    List (String × Obj) :=
  catalogReferences.foldl
    (fun acc e =>
      match objGet catalogDependencies (("catalog:") ++ e.1) with
      | none => acc
      | some catalogDeps =>
          let referencedCatalogDeps := e.2.foldl
            (fun r p => if truthy (objGet catalogDeps p)
              then r ++ [(p, (objGet catalogDeps p).getD (""))] else r) []
          let upg := upgradeFn referencedCatalogDeps
          if upg.isEmpty then acc else acc ++ [(e.1, upg)])
    []

end Proc3

/-- Merge one catalog's mapping into the accumulated per-name catalogs:
`catalogDependencies[name] = {...catalogDependencies[name], ...deps}`. -/
def mergeCatalog (acc : List (String × Obj)) (name : String) (obj : Obj) :
    List (String × Obj) :=
  match objGet acc name with
  | some existing => objSet acc name (spread existing obj)
  | none => acc ++ [(name, obj)]

/-- readCatalogDependencies (PackageInfo.ts lines 43-96): for pnpm, take the
`catalogs` (NOT the flat `catalog`) of pnpm-workspace.yaml; then merge the
root package.json's `catalog` (as `default`) and `catalogs`, then the
non-array `workspaces.catalog` / `workspaces.catalogs`.  The caller treats
an empty result as null. -/
def readCatalogDependencies (packageManagerIsPnpm : Bool)
    (pnpmCatalogs : Option (List (String × Obj))) (pkgCatalog : Option Obj)
    (pkgCatalogs : Option (List (String × Obj))) (wsCatalog : Option Obj)
    (wsCatalogs : Option (List (String × Obj))) : List (String × Obj) :=
  let acc : List (String × Obj) :=
    if packageManagerIsPnpm then
      match pnpmCatalogs with
      | some cs => cs
      | none => []
    else []
  let acc := match pkgCatalog with
    | some c => mergeCatalog acc ("default") c
    | none => acc
  let acc := match pkgCatalogs with
    | some cs => cs.foldl (fun a e => mergeCatalog a e.1 e.2) acc
    | none => acc
  let acc := match wsCatalog with
    | some c => mergeCatalog acc ("default") c
    | none => acc
  match wsCatalogs with
  | some cs => cs.foldl (fun a e => mergeCatalog a e.1 e.2) acc
  | none => acc

/-- C3 — claimed: the catalog file is parsed once and written exactly once
per invocation.  The update loop of part_003 instead performs one
read-modify-write round trip per upgraded catalog: with two upgraded
catalogs the trace is read (the unused up-front read), then read, write,
read, write — two writes of the same file. -/
theorem processCatalogs_write_per_catalog :
    Proc3.catalogUpdateEvents
        [(("mobile"), [(("axios"), ("1.2.0"))]), (("web"), [(("lodash"), ("5.0.0"))])]
      = [Proc3.FileEvent.read, Proc3.FileEvent.read, Proc3.FileEvent.write,
          Proc3.FileEvent.read, Proc3.FileEvent.write] ∧
    Proc3.writeCount (Proc3.catalogUpdateEvents
        [(("mobile"), [(("axios"), ("1.2.0"))]), (("web"), [(("lodash"), ("5.0.0"))])])
      = 2 := by
  constructor
  · decide
  · decide

/-- The catalog definitions of the C4 scenario, as readCatalogDependencies
loads them from a root manifest whose `catalog` holds lodash at 4.17.20:
the default catalog is keyed `default`. -/
def c4catalogDependencies : List (String × Obj) :=
  readCatalogDependencies false none (some [(("lodash"), ("4.17.20"))]) none none none

/-- The C4 consumer manifest: lodash declared as the default-catalog
reference. -/
def c4consumer : Pkg :=
  ⟨fun n => if n = ("dependencies") then [(("lodash"), ("catalog:"))] else [], none⟩

/-- The C4 desired map lodash ↦ 4.17.21, as the resolver would return it. -/
def c4upgradeFn : Obj → Obj :=
  fun o => o.foldl
    (fun r e => if e.1 = ("lodash") then r ++ [(("lodash"), ("4.17.21"))] else r) []

/-- C4 — claimed: the run rewrites the catalog definition to 4.17.21.  In
part_003 the consumer's `catalog:` reference yields the empty catalog name,
and the loop looks up `catalogDependencies['catalog:']` — but
readCatalogDependencies keys the default catalog as `default`, so the lookup
misses, no upgrade is computed, and the catalog file is never rewritten
(the consumer manifest is indeed untouched, trivially). -/
theorem processCatalogs_default_catalog_lookup_miss :
    c4catalogDependencies = [(("default"), [(("lodash"), ("4.17.20"))])] ∧
    Proc3.collectCatalogReferences [c4consumer] [("dependencies")] [] (fun _ _ => true)
      = [((""), [("lodash")])] ∧
    Proc3.computeUpgradedCatalogDeps c4catalogDependencies c4upgradeFn
      (Proc3.collectCatalogReferences [c4consumer] [("dependencies")] []
        (fun _ _ => true)) = [] ∧
    Proc3.writeCount (Proc3.catalogUpdateEvents
      (Proc3.computeUpgradedCatalogDeps c4catalogDependencies c4upgradeFn
        (Proc3.collectCatalogReferences [c4consumer] [("dependencies")] []
          (fun _ _ => true)))) = 0 := by
  refine ⟨?_, ?_, ?_, ?_⟩ <;> decide

/-! ## Idempotence machinery (C8)

A patch application is a fold of single-location writes.  For any write
function that absorbs a repeated identical write and commutes distinct
locations, applying a list of writes at pairwise-distinct locations twice
equals applying it once. -/

/-- Apply a list of (location, value) writes left to right. -/
def applyList {α π : Type} (m : α → π → String → α) (c : α) (l : List (π × String)) : α :=
  l.foldl (fun c e => m c e.1 e.2) c

theorem applyList_nil {α π : Type} (m : α → π → String → α) (c : α) :
    applyList m c [] = c := rfl

theorem applyList_cons {α π : Type} (m : α → π → String → α) (c : α)
    (e : π × String) (l : List (π × String)) :
    applyList m c (e :: l) = applyList m (m c e.1 e.2) l := rfl

theorem applyList_append {α π : Type} (m : α → π → String → α) (c : α)
    (l1 l2 : List (π × String)) :
    applyList m c (l1 ++ l2) = applyList m (applyList m c l1) l2 := by
  unfold applyList
  exact List.foldl_append _ _ _ _

theorem applyList_comm_out {α π : Type} (m : α → π → String → α)
    (hcomm : ∀ (c : α) (p q : π) (v w : String), p ≠ q →
      m (m c p v) q w = m (m c q w) p v)
    (c : α) (p : π) (v : String) (l : List (π × String))
    (h : ∀ q ∈ l.map Prod.fst, p ≠ q) :
    applyList m (m c p v) l = m (applyList m c l) p v := by
  induction l generalizing c with
  | nil => rfl
  | cons e t ih =>
      have hpe : p ≠ e.1 := h e.1 (List.mem_map_of_mem Prod.fst (List.mem_cons_self e t))
      rw [applyList_cons, hcomm c p e.1 v e.2 hpe, applyList_cons]
      exact ih (m c e.1 e.2) (fun q hq => h q (by
        rw [List.map_cons]
        exact List.mem_cons_of_mem e.1 hq))

theorem applyList_idem {α π : Type} (m : α → π → String → α)
    (hsame : ∀ (c : α) (p : π) (v : String), m (m c p v) p v = m c p v)
    (hcomm : ∀ (c : α) (p q : π) (v w : String), p ≠ q →
      m (m c p v) q w = m (m c q w) p v)
    (c : α) (l : List (π × String)) (hnd : (l.map Prod.fst).Nodup) :
    applyList m (applyList m c l) l = applyList m c l := by
  induction l generalizing c with
  | nil => rfl
  | cons e t ih =>
      have hndt : (t.map Prod.fst).Nodup := (List.nodup_cons.mp hnd).2
      have hnotin : e.1 ∉ t.map Prod.fst := (List.nodup_cons.mp hnd).1
      have hne : ∀ q ∈ t.map Prod.fst, e.1 ≠ q := fun q hq heq => hnotin (heq ▸ hq)
      rw [applyList_cons, applyList_cons]
      have habsorb : m (applyList m (m c e.1 e.2) t) e.1 e.2
          = applyList m (m c e.1 e.2) t := by
        rw [← applyList_comm_out m hcomm (m c e.1 e.2) e.1 e.2 t hne, hsame]
      rw [habsorb]
      exact ih (m c e.1 e.2) hndt

/-! ### The JSON path as a list of writes -/

/-- The write (if any) that one upgraded entry produces in the JSON path of
part_004: skipped when `current[dep] === upgraded[dep]`; otherwise the
workspaces path wins when its guard fires (discarding the root edit),
else the root path when it exists. -/
def jsonEditOf (fileRoot : JView) (catalogName : String)
    (current : String → Option String) (e : String × String) :
    Option (List String × String) :=
  if current e.1 = some e.2 then none
  else if PureCatalog.hasWorkspacesCatalogs fileRoot
      && fileRoot.has (("workspaces") :: PureCatalog.keyPathOf catalogName e.1) then
    some ((("workspaces") :: PureCatalog.keyPathOf catalogName e.1), e.2)
  else if fileRoot.has (PureCatalog.keyPathOf catalogName e.1) then
    some ((PureCatalog.keyPathOf catalogName e.1), e.2)
  else none

/-- All writes of one JSON-path invocation, in entry order. -/
def jsonEdits (fileRoot : JView) (catalogName : String)
    (current : String → Option String) (upgraded : List (String × String)) :
    List (List String × String) :=
  upgraded.filterMap (jsonEditOf fileRoot catalogName current)

theorem upgradeJson_eq_applyList {α : Type} (parseTree : α → JView)
    (jmodify : α → List String → String → α) (fileContent : α) (catalogName : String)
    (current : String → Option String) (upgraded : List (String × String)) :
    PureCatalog.upgradeJsonCatalogData parseTree jmodify fileContent catalogName
        current upgraded
      = applyList jmodify fileContent
          (jsonEdits (parseTree fileContent) catalogName current upgraded) := by
  unfold PureCatalog.upgradeJsonCatalogData
  generalize parseTree fileContent = root
  show upgraded.foldl _ fileContent = applyList jmodify fileContent
      (jsonEdits root catalogName current upgraded)
  induction upgraded generalizing fileContent with
  | nil => rfl
  | cons e t ih =>
      rw [List.foldl_cons]
      have hsplit : jsonEdits root catalogName current (e :: t)
          = (match jsonEditOf root catalogName current e with
            | some ed => [ed]
            | none => []) ++ jsonEdits root catalogName current t := by
        unfold jsonEdits
        rw [List.filterMap_cons]
        cases jsonEditOf root catalogName current e <;> simp
      rw [hsplit, applyList_append]
      by_cases h0 : current e.1 = some e.2
      · rw [show jsonEditOf root catalogName current e = none from by
          unfold jsonEditOf
          rw [if_pos h0]]
        simp only [if_pos h0]
        exact ih fileContent
      · by_cases h1 : (PureCatalog.hasWorkspacesCatalogs root
            && root.has (("workspaces") :: PureCatalog.keyPathOf catalogName e.1)) = true
        · rw [show jsonEditOf root catalogName current e
              = some ((("workspaces") :: PureCatalog.keyPathOf catalogName e.1), e.2) from by
            unfold jsonEditOf
            rw [if_neg h0, if_pos h1]]
          simp only [if_neg h0, h1, if_pos, applyList_cons, applyList_nil]
          exact ih _
        · by_cases h2 : root.has (PureCatalog.keyPathOf catalogName e.1) = true
          · rw [show jsonEditOf root catalogName current e
                = some ((PureCatalog.keyPathOf catalogName e.1), e.2) from by
              unfold jsonEditOf
              rw [if_neg h0, if_neg (by simpa using h1), if_pos h2]]
            simp only [if_neg h0, h1, if_pos h2, Bool.false_eq_true, if_false,
              applyList_cons, applyList_nil]
            exact ih _
          · rw [show jsonEditOf root catalogName current e = none from by
              unfold jsonEditOf
              rw [if_neg h0, if_neg (by simpa using h1),
                if_neg (by simpa using h2)]]
            simp only [if_neg h0, h1, h2, Bool.false_eq_true, if_false,
              applyList_nil]
            exact ih _

theorem jsonEditOf_shape (root : JView) (cn : String) (cur : String → Option String)
    (e : String × String) (ed : List String × String)
    (h : jsonEditOf root cn cur e = some ed) :
    ed.1 = ("workspaces") :: PureCatalog.keyPathOf cn e.1 ∨
      ed.1 = PureCatalog.keyPathOf cn e.1 := by
  unfold jsonEditOf at h
  by_cases h0 : cur e.1 = some e.2
  · rw [if_pos h0] at h
    simp at h
  · rw [if_neg h0] at h
    by_cases h1 : (PureCatalog.hasWorkspacesCatalogs root
        && root.has (("workspaces") :: PureCatalog.keyPathOf cn e.1)) = true
    · rw [if_pos h1] at h
      cases h
      exact Or.inl rfl
    · rw [if_neg h1] at h
      by_cases h2 : root.has (PureCatalog.keyPathOf cn e.1) = true
      · rw [if_pos h2] at h
        cases h
        exact Or.inr rfl
      · rw [if_neg h2] at h
        simp at h

theorem keyPathOf_inj (cn d1 d2 : String)
    (h : PureCatalog.keyPathOf cn d1 = PureCatalog.keyPathOf cn d2) : d1 = d2 := by
  unfold PureCatalog.keyPathOf at h
  by_cases hc : cn = ("") <;> simp [hc] at h <;> exact h

theorem keyPathOf_length_eq (cn d1 d2 : String) :
    (PureCatalog.keyPathOf cn d1).length = (PureCatalog.keyPathOf cn d2).length := by
  unfold PureCatalog.keyPathOf
  by_cases hc : cn = ("") <;> simp [hc]

theorem jsonPath_dep_inj (cn d1 d2 : String) (p q : List String)
    (hp : p = ("workspaces") :: PureCatalog.keyPathOf cn d1 ∨
      p = PureCatalog.keyPathOf cn d1)
    (hq : q = ("workspaces") :: PureCatalog.keyPathOf cn d2 ∨
      q = PureCatalog.keyPathOf cn d2)
    (hpq : p = q) : d1 = d2 := by
  cases hp with
  | inl hp1 =>
      cases hq with
      | inl hq1 =>
          have := hp1 ▸ hq1 ▸ hpq
          exact keyPathOf_inj cn d1 d2 (List.cons.injEq _ _ _ _ ▸ this).2
      | inr hq2 =>
          have hlist := hp1 ▸ hq2 ▸ hpq
          have hlen := congrArg List.length hlist
          rw [List.length_cons, keyPathOf_length_eq cn d1 d2] at hlen
          omega
  | inr hp2 =>
      cases hq with
      | inl hq1 =>
          have hlist := hp2 ▸ hq1 ▸ hpq
          have hlen := congrArg List.length hlist
          rw [List.length_cons, keyPathOf_length_eq cn d1 d2] at hlen
          omega
      | inr hq2 => exact keyPathOf_inj cn d1 d2 (hp2 ▸ hq2 ▸ hpq)

theorem jsonEdits_paths_nodup (root : JView) (cn : String)
    (cur : String → Option String) (upgraded : List (String × String))
    (hnd : NodupKeys upgraded) :
    ((jsonEdits root cn cur upgraded).map Prod.fst).Nodup := by
  induction upgraded with
  | nil => simp [jsonEdits]
  | cons e t ih =>
      have hndt : NodupKeys t := (List.nodup_cons.mp hnd).2
      have hnotin : e.1 ∉ t.map Prod.fst := (List.nodup_cons.mp hnd).1
      unfold jsonEdits
      rw [List.filterMap_cons]
      cases hed : jsonEditOf root cn cur e with
      | none => exact ih hndt
      | some ed =>
          rw [List.map_cons]
          refine List.nodup_cons.mpr ⟨?_, ih hndt⟩
          intro hmem
          rcases List.mem_map.mp hmem with ⟨ed', hed', h1⟩
          rcases List.mem_filterMap.mp hed' with ⟨e', he', hfe'⟩
          have hs1 := jsonEditOf_shape root cn cur e ed hed
          have hs2 := jsonEditOf_shape root cn cur e' ed' hfe'
          have hdep : e'.1 = e.1 := jsonPath_dep_inj cn e'.1 e.1 ed'.1 ed.1 hs2 hs1 h1
          exact hnotin (hdep ▸ List.mem_map_of_mem Prod.fst he')

theorem parseTree_applyList {α : Type} (parseTree : α → JView)
    (jmodify : α → List String → String → α)
    (hJ1 : ∀ (c : α) (p : List String) (v : String), parseTree (jmodify c p v) = parseTree c)
    (c : α) (l : List (List String × String)) :
    parseTree (applyList jmodify c l) = parseTree c := by
  induction l generalizing c with
  | nil => rfl
  | cons e t ih =>
      rw [applyList_cons, ih, hJ1]

/-- Applying the JSON path twice with the same arguments equals applying it
once, under the jsonc-parser contract: a value edit preserves the parsed
tree shape, repeating an identical edit is absorbed, and edits at distinct
paths commute. -/
theorem upgradeJson_idem {α : Type} (parseTree : α → JView)
    (jmodify : α → List String → String → α)
    (hJ1 : ∀ (c : α) (p : List String) (v : String), parseTree (jmodify c p v) = parseTree c)
    (hJ2 : ∀ (c : α) (p : List String) (v : String),
      jmodify (jmodify c p v) p v = jmodify c p v)
    (hJ3 : ∀ (c : α) (p q : List String) (v w : String), p ≠ q →
      jmodify (jmodify c p v) q w = jmodify (jmodify c q w) p v)
    (fileContent : α) (catalogName : String) (current : String → Option String)
    (upgraded : List (String × String)) (hnd : NodupKeys upgraded) :
    PureCatalog.upgradeJsonCatalogData parseTree jmodify
        (PureCatalog.upgradeJsonCatalogData parseTree jmodify fileContent catalogName
          current upgraded) catalogName current upgraded
      = PureCatalog.upgradeJsonCatalogData parseTree jmodify fileContent catalogName
          current upgraded := by
  have h1 := upgradeJson_eq_applyList parseTree jmodify fileContent catalogName
    current upgraded
  have hroot : parseTree (PureCatalog.upgradeJsonCatalogData parseTree jmodify
      fileContent catalogName current upgraded) = parseTree fileContent := by
    rw [h1]
    exact parseTree_applyList parseTree jmodify hJ1 fileContent _
  have h2 := upgradeJson_eq_applyList parseTree jmodify
    (PureCatalog.upgradeJsonCatalogData parseTree jmodify fileContent catalogName
      current upgraded) catalogName current upgraded
  rw [h2, hroot, h1]
  exact applyList_idem jmodify hJ2 hJ3 fileContent
    (jsonEdits (parseTree fileContent) catalogName current upgraded)
    (jsonEdits_paths_nodup (parseTree fileContent) catalogName current upgraded hnd)

/-! ### The YAML path as a list of writes -/

/-- A catalog location in a YAML document: the flat catalog or a named
catalog, at a dependency key. -/
inductive YLoc
  | flat (dep : String)
  | named (n dep : String)
deriving DecidableEq, Repr

/-- One guarded `setIn` of the YAML path, as an unguarded write at a
location known to exist. -/
def yApply (d : YDoc) (loc : YLoc) (v : String) : YDoc :=
  match loc with
  | YLoc.flat dep => { d with catalog := objSet d.catalog dep v }
  | YLoc.named n dep => ySetNamed d n dep v

theorem yApply_same (d : YDoc) (loc : YLoc) (v : String) :
    yApply (yApply d loc v) loc v = yApply d loc v := by
  cases loc with
  | flat dep =>
      show YDoc.mk (objSet (objSet d.catalog dep v) dep v) d.catalogs
        = YDoc.mk (objSet d.catalog dep v) d.catalogs
      rw [objSet_objSet_same]
  | named n dep =>
      show ySetNamed (ySetNamed d n dep v) n dep v = ySetNamed d n dep v
      unfold ySetNamed
      simp only [List.map_map]
      refine congrArg _ (List.map_congr_left (fun c _ => ?_))
      by_cases h : c.1 = n <;> simp [h, objSet_objSet_same]

theorem yApply_comm (d : YDoc) (p q : YLoc) (v w : String) (h : p ≠ q) :
    yApply (yApply d p v) q w = yApply (yApply d q w) p v := by
  cases p with
  | flat d1 =>
      cases q with
      | flat d2 =>
          have hne : d1 ≠ d2 := fun he => h (he ▸ rfl)
          show YDoc.mk (objSet (objSet d.catalog d1 v) d2 w) d.catalogs
            = YDoc.mk (objSet (objSet d.catalog d2 w) d1 v) d.catalogs
          rw [objSet_comm _ _ _ _ _ hne]
      | named n2 d2 => rfl
  | named n1 d1 =>
      cases q with
      | flat d2 => rfl
      | named n2 d2 =>
          show ySetNamed (ySetNamed d n1 d1 v) n2 d2 w
            = ySetNamed (ySetNamed d n2 d2 w) n1 d1 v
          unfold ySetNamed
          simp only [List.map_map]
          refine congrArg _ (List.map_congr_left (fun c _ => ?_))
          by_cases h1 : c.1 = n1 <;> by_cases h2 : c.1 = n2
          · have hnn : n1 = n2 := h1.symm.trans h2
            have hdd : d1 ≠ d2 := by
              intro he
              exact h (by rw [hnn, he])
            subst hnn
            simp [h1, objSet_comm c.2 d1 d2 v w hdd]
          · have hn12 : ¬ n1 = n2 := fun he => h2 (h1.trans he)
            have hn21 : ¬ n2 = n1 := fun he => hn12 he.symm
            simp [h1, h2, hn12, hn21]
          · have hn21 : ¬ n2 = n1 := fun he => h1 (h2.trans he)
            have hn12 : ¬ n1 = n2 := fun he => hn21 he.symm
            simp [h1, h2, hn12, hn21]
          · simp [h1, h2]

/-- Writes preserve presence at the flat catalog. -/
theorem yApply_presence_flat (d : YDoc) (loc : YLoc) (v : String) (k : String) :
    (objGet (yApply d loc v).catalog k).isSome = (objGet d.catalog k).isSome := by
  cases loc with
  | flat dep =>
      show (objGet (objSet d.catalog dep v) k).isSome = _
      rw [objGet_objSet]
      by_cases h : k = dep
      · rw [if_pos h, h]
        cases objGet d.catalog dep <;> rfl
      · rw [if_neg h]
  | named n dep => rfl

/-- Lookup of a named catalog after a named write: the stored object is
updated exactly at the written catalog name. -/
theorem objGet_map_ySet (cats : List (String × Obj)) (n' dep v n : String) :
    objGet (cats.map (fun c => (c.1, if c.1 = n' then objSet c.2 dep v else c.2))) n
      = (objGet cats n).map (fun b => if n = n' then objSet b dep v else b) := by
  induction cats with
  | nil => rfl
  | cons c t ih =>
      by_cases hc : c.1 = n
      · simp only [List.map_cons, objGet_cons, hc]
        simp
      · simp only [List.map_cons, objGet_cons, if_neg hc]
        exact ih

/-- Writes preserve presence at every named catalog. -/
theorem yApply_presence_named (d : YDoc) (loc : YLoc) (v : String) (n k : String) :
    (yGetNamed (yApply d loc v) n k).isSome = (yGetNamed d n k).isSome := by
  cases loc with
  | flat dep => rfl
  | named n' dep =>
      show (yGetNamed (ySetNamed d n' dep v) n k).isSome = _
      unfold yGetNamed ySetNamed
      rw [objGet_map_ySet]
      cases hg : objGet d.catalogs n with
      | none => rfl
      | some c =>
          by_cases h : n = n'
          · simp only [if_pos h]
            show (objGet (objSet c dep v) k).isSome = (objGet c k).isSome
            rw [objGet_objSet]
            by_cases hk : k = dep
            · rw [if_pos hk, hk]
              cases objGet c dep <;> rfl
            · rw [if_neg hk]
          · simp only [if_neg h]
            show (objGet c k).isSome = (objGet c k).isSome
            rfl

theorem nodupKeys_filter {α : Type} (o : List (String × α)) (p : String × α → Bool)
    (h : NodupKeys o) : NodupKeys (o.filter p) :=
  List.Nodup.sublist (List.Sublist.map Prod.fst (List.filter_sublist o)) h

theorem applyList_presence_flat (d : YDoc) (l : List (YLoc × String)) (k : String) :
    (objGet (applyList yApply d l).catalog k).isSome = (objGet d.catalog k).isSome := by
  induction l generalizing d with
  | nil => rfl
  | cons e t ih =>
      rw [applyList_cons, ih, yApply_presence_flat]

theorem applyList_presence_named (d : YDoc) (l : List (YLoc × String)) (n k : String) :
    (yGetNamed (applyList yApply d l) n k).isSome = (yGetNamed d n k).isSome := by
  induction l generalizing d with
  | nil => rfl
  | cons e t ih =>
      rw [applyList_cons, ih, yApply_presence_named]

/-- The writes one upgraded entry produces in the YAML path, judged against
the guards of the given document. -/
def yEditsOfEntry (d : YDoc) (catalogName : String) (e : String × String) :
    List (YLoc × String) :=
  if catalogName = ("default") then
    (if (objGet d.catalog e.1).isSome then [(YLoc.flat e.1, e.2)] else []) ++
      (if (yGetNamed d ("default") e.1).isSome
        then [(YLoc.named ("default") e.1, e.2)] else [])
  else
    if (yGetNamed d catalogName e.1).isSome
      then [(YLoc.named catalogName e.1, e.2)] else []

/-- The guarded flat-catalog write of the YAML path's default branch. -/
def yFlatWrite (d : YDoc) (e : String × String) : YDoc :=
  if (objGet d.catalog e.1).isSome then { d with catalog := objSet d.catalog e.1 e.2 } else d

/-- One step of the YAML path's fold over the filtered entries. -/
def yStep (catalogName : String) (d : YDoc) (e : String × String) : YDoc :=
  if catalogName = ("default") then
    if (yGetNamed (yFlatWrite d e) ("default") e.1).isSome
      then ySetNamed (yFlatWrite d e) ("default") e.1 e.2 else yFlatWrite d e
  else
    if (yGetNamed d catalogName e.1).isSome
      then ySetNamed d catalogName e.1 e.2 else d

theorem upgradeYaml_eq_foldl (doc : YDoc) (catalogName : String)
    (current : String → Option String) (upgraded : List (String × String)) :
    PureCatalog.upgradeYamlCatalogData doc catalogName current upgraded
      = (upgraded.filter (fun e => truthy (current e.1))).foldl (yStep catalogName) doc := rfl

theorem yGetNamed_congr (d d' : YDoc) (n k : String) (h : d.catalogs = d'.catalogs) :
    yGetNamed d n k = yGetNamed d' n k := by
  unfold yGetNamed
  rw [h]

theorem yFlatWrite_catalogs (d : YDoc) (e : String × String) :
    (yFlatWrite d e).catalogs = d.catalogs := by
  unfold yFlatWrite
  by_cases h : (objGet d.catalog e.1).isSome = true <;> simp [h]

theorem yStep_eq_applyList (cn : String) (d : YDoc) (e : String × String) :
    yStep cn d e = applyList yApply d (yEditsOfEntry d cn e) := by
  unfold yStep yEditsOfEntry
  by_cases hdef : cn = ("default")
  · rw [if_pos hdef, if_pos hdef]
    have hguard : (yGetNamed (yFlatWrite d e) ("default") e.1).isSome
        = (yGetNamed d ("default") e.1).isSome := by
      rw [yGetNamed_congr (yFlatWrite d e) d ("default") e.1 (yFlatWrite_catalogs d e)]
    by_cases hf : (objGet d.catalog e.1).isSome = true
    · have hfw : yFlatWrite d e = yApply d (YLoc.flat e.1) e.2 := by
        unfold yFlatWrite
        rw [if_pos hf]
        rfl
      rw [if_pos hf]
      by_cases hn : (yGetNamed d ("default") e.1).isSome = true
      · rw [if_pos (hguard.trans hn), if_pos hn, hfw]
        rfl
      · have hg2 : ¬ ((yGetNamed (yFlatWrite d e) ("default") e.1).isSome = true) := by
          rw [hguard]
          exact hn
        rw [if_neg hg2, if_neg hn, hfw]
        rfl
    · have hfw : yFlatWrite d e = d := by
        unfold yFlatWrite
        rw [if_neg hf]
      rw [if_neg hf]
      by_cases hn : (yGetNamed d ("default") e.1).isSome = true
      · rw [if_pos (hguard.trans hn), if_pos hn, hfw]
        rfl
      · have hg2 : ¬ ((yGetNamed (yFlatWrite d e) ("default") e.1).isSome = true) := by
          rw [hguard]
          exact hn
        rw [if_neg hg2, if_neg hn, hfw]
        rfl
  · rw [if_neg hdef, if_neg hdef]
    by_cases hn : (yGetNamed d cn e.1).isSome = true
    · rw [if_pos hn, if_pos hn]
      rfl
    · rw [if_neg hn, if_neg hn]
      rfl

theorem yEditsOfEntry_congr (d d' : YDoc) (cn : String) (e : String × String)
    (hf : (objGet d'.catalog e.1).isSome = (objGet d.catalog e.1).isSome)
    (hd : (yGetNamed d' ("default") e.1).isSome = (yGetNamed d ("default") e.1).isSome)
    (hn : (yGetNamed d' cn e.1).isSome = (yGetNamed d cn e.1).isSome) :
    yEditsOfEntry d' cn e = yEditsOfEntry d cn e := by
  unfold yEditsOfEntry
  rw [hf, hd, hn]

theorem yFold_eq_applyList (cn : String) (l : List (String × String)) (d : YDoc) :
    l.foldl (yStep cn) d = applyList yApply d (l.flatMap (fun e => yEditsOfEntry d cn e)) := by
  induction l generalizing d with
  | nil => rfl
  | cons e t ih =>
      rw [List.foldl_cons, List.flatMap_cons, ih (yStep cn d e)]
      have hcong : (fun e' => yEditsOfEntry (yStep cn d e) cn e')
          = (fun e' => yEditsOfEntry d cn e') := by
        funext e'
        rw [yStep_eq_applyList]
        exact yEditsOfEntry_congr d (applyList yApply d (yEditsOfEntry d cn e)) cn e'
          (applyList_presence_flat d _ _) (applyList_presence_named d _ _ _)
          (applyList_presence_named d _ _ _)
      rw [hcong, applyList_append, yStep_eq_applyList]

/-- The dependency a location writes. -/
def ylocDep : YLoc → String
  | YLoc.flat d => d
  | YLoc.named _ d => d

theorem yEditsOfEntry_locDep (d : YDoc) (cn : String) (e : String × String)
    (loc : YLoc) (h : loc ∈ (yEditsOfEntry d cn e).map Prod.fst) : ylocDep loc = e.1 := by
  unfold yEditsOfEntry at h
  by_cases hdef : cn = ("default")
  · rw [if_pos hdef] at h
    rw [List.map_append] at h
    rcases List.mem_append.mp h with h1 | h2
    · by_cases hf : (objGet d.catalog e.1).isSome = true
      · rw [if_pos hf] at h1
        simp at h1
        rw [h1]
        rfl
      · rw [if_neg hf] at h1
        simp at h1
    · by_cases hn : (yGetNamed d ("default") e.1).isSome = true
      · rw [if_pos hn] at h2
        simp at h2
        rw [h2]
        rfl
      · rw [if_neg hn] at h2
        simp at h2
  · rw [if_neg hdef] at h
    by_cases hn : (yGetNamed d cn e.1).isSome = true
    · rw [if_pos hn] at h
      simp at h
      rw [h]
      rfl
    · rw [if_neg hn] at h
      simp at h

theorem yEditsOfEntry_locs_nodup (d : YDoc) (cn : String) (e : String × String) :
    ((yEditsOfEntry d cn e).map Prod.fst).Nodup := by
  unfold yEditsOfEntry
  by_cases hdef : cn = ("default")
  · rw [if_pos hdef]
    by_cases hf : (objGet d.catalog e.1).isSome = true <;>
      by_cases hn : (yGetNamed d ("default") e.1).isSome = true <;>
      simp [hf, hn]
  · rw [if_neg hdef]
    by_cases hn : (yGetNamed d cn e.1).isSome = true <;> simp [hn]

theorem yEdits_locDep_mem (d : YDoc) (cn : String) (t : List (String × String))
    (loc : YLoc) (h : loc ∈ ((t.flatMap (fun e => yEditsOfEntry d cn e)).map Prod.fst)) :
    ∃ e' ∈ t, ylocDep loc = e'.1 := by
  rcases List.mem_map.mp h with ⟨ed, hed, hfst⟩
  rcases List.mem_flatMap.mp hed with ⟨e', he', hede⟩
  have hmem : loc ∈ (yEditsOfEntry d cn e').map Prod.fst := by
    rw [← hfst]
    exact List.mem_map_of_mem Prod.fst hede
  exact ⟨e', he', yEditsOfEntry_locDep d cn e' loc hmem⟩

theorem yEdits_locs_nodup (d : YDoc) (cn : String) (l : List (String × String))
    (hnd : NodupKeys l) :
    ((l.flatMap (fun e => yEditsOfEntry d cn e)).map Prod.fst).Nodup := by
  induction l with
  | nil => simp
  | cons e t ih =>
      have hndt : NodupKeys t := (List.nodup_cons.mp hnd).2
      have hnotin : e.1 ∉ t.map Prod.fst := (List.nodup_cons.mp hnd).1
      rw [List.flatMap_cons, List.map_append]
      rw [List.nodup_append]
      refine ⟨yEditsOfEntry_locs_nodup d cn e, ih hndt, ?_⟩
      intro loc hloc hloc2
      have h1 : ylocDep loc = e.1 := yEditsOfEntry_locDep d cn e loc hloc
      rcases yEdits_locDep_mem d cn t loc hloc2 with ⟨e', he', h2⟩
      exact hnotin (h1 ▸ h2 ▸ List.mem_map_of_mem Prod.fst he')

/-- Applying the YAML path twice with the same arguments equals applying it
once: the first pass never changes which catalog paths exist, so the second
pass repeats exactly the same writes, each of which is absorbed. -/
theorem upgradeYaml_idem (doc : YDoc) (catalogName : String)
    (current : String → Option String) (upgraded : List (String × String))
    (hnd : NodupKeys upgraded) :
    PureCatalog.upgradeYamlCatalogData
        (PureCatalog.upgradeYamlCatalogData doc catalogName current upgraded)
        catalogName current upgraded
      = PureCatalog.upgradeYamlCatalogData doc catalogName current upgraded := by
  have hndl : NodupKeys (upgraded.filter (fun e => truthy (current e.1))) :=
    nodupKeys_filter upgraded _ hnd
  rw [upgradeYaml_eq_foldl, upgradeYaml_eq_foldl, yFold_eq_applyList, yFold_eq_applyList]
  have hE : (upgraded.filter (fun e => truthy (current e.1))).flatMap
      (fun e' => yEditsOfEntry (applyList yApply doc
        ((upgraded.filter (fun e => truthy (current e.1))).flatMap
          (fun e => yEditsOfEntry doc catalogName e))) catalogName e')
      = (upgraded.filter (fun e => truthy (current e.1))).flatMap
          (fun e' => yEditsOfEntry doc catalogName e') := by
    refine congrArg _ (funext (fun e' => ?_))
    exact yEditsOfEntry_congr doc _ catalogName e'
      (applyList_presence_flat doc _ _) (applyList_presence_named doc _ _ _)
      (applyList_presence_named doc _ _ _)
  rw [hE]
  exact applyList_idem yApply yApply_same yApply_comm doc _
    (yEdits_locs_nodup doc catalogName _ hndl)

/-- C8 — *Idempotence*: applying the same edit-operation set a second time,
to the text produced by the first application of upgradeCatalogData
(part_004), yields byte-identical output.  Hypotheses state the external
libraries' contracts: the yaml library re-parses its own serialization to
the same document, and jsonc-parser value edits preserve the parsed tree
shape, absorb an identical repeated edit and commute at distinct paths;
`upgraded` has unique keys as `Object.entries` guarantees. -/
theorem upgradeCatalogData_idempotent {α : Type} (parseTree : α → JView)
    (jmodify : α → List String → String → α) (parseYaml : α → YDoc)
    (serializeYaml : YDoc → α)
    (fileContent : α) (fileExtension catalogName : String)
    (current : String → Option String) (upgraded : List (String × String))
    (hpd : parseYaml (serializeYaml (PureCatalog.upgradeYamlCatalogData
        (parseYaml fileContent) catalogName current upgraded))
      = PureCatalog.upgradeYamlCatalogData (parseYaml fileContent) catalogName
          current upgraded)
    (hJ1 : ∀ (c : α) (p : List String) (v : String),
      parseTree (jmodify c p v) = parseTree c)
    (hJ2 : ∀ (c : α) (p : List String) (v : String),
      jmodify (jmodify c p v) p v = jmodify c p v)
    (hJ3 : ∀ (c : α) (p q : List String) (v w : String), p ≠ q →
      jmodify (jmodify c p v) q w = jmodify (jmodify c q w) p v)
    (hnd : NodupKeys upgraded) (t1 : α)
    (h1 : PureCatalog.upgradeCatalogData parseTree jmodify parseYaml serializeYaml
      fileContent fileExtension catalogName current upgraded = Except.ok t1) :
    PureCatalog.upgradeCatalogData parseTree jmodify parseYaml serializeYaml
      t1 fileExtension catalogName current upgraded = Except.ok t1 := by
  unfold PureCatalog.upgradeCatalogData at h1 ⊢
  by_cases hy : fileExtension = (".yaml") ∨ fileExtension = (".yml")
  · rw [if_pos hy] at h1 ⊢
    injection h1 with h1'
    rw [← h1', hpd,
      upgradeYaml_idem (parseYaml fileContent) catalogName current upgraded hnd]
  · rw [if_neg hy] at h1 ⊢
    by_cases hj : fileExtension = (".json")
    · rw [if_pos hj] at h1 ⊢
      injection h1 with h1'
      rw [← h1',
        upgradeJson_idem parseTree jmodify hJ1 hJ2 hJ3 fileContent catalogName
          current upgraded hnd]
    · rw [if_neg hj] at h1
      exact absurd h1 (by simp)

/-- The starting document of the C8 witness. -/
def d0W : YDoc :=
  YDoc.mk [(("lodash"), ("4.17.20"))] [(("default"), [(("lodash"), ("4.17.20"))])]

/-- The current map of the C8 witness. -/
def curW : String → Option String :=
  fun s => if s = ("lodash") then some ("4.17.20") else none

/-- The upgraded map of the C8 witness. -/
def upgW : List (String × String) := [(("lodash"), ("4.17.21"))]

/-- The yaml parser of the C8 witness: the patched text parses to the
patched document, anything else to the starting document. -/
def yparseW : String → YDoc :=
  fun s => if s = ("out")
    then PureCatalog.upgradeYamlCatalogData d0W ("default") curW upgW else d0W

theorem upgradeCatalogData_idempotent_witness :
    PureCatalog.upgradeCatalogData (fun _ : String => JView.mk (fun _ => false) false)
      (fun c _ _ => c) yparseW (fun _ => ("out")) ("in") (".yaml") ("default") curW upgW
      = Except.ok ("out") ∧
    PureCatalog.upgradeCatalogData (fun _ : String => JView.mk (fun _ => false) false)
      (fun c _ _ => c) yparseW (fun _ => ("out")) ("out") (".yaml") ("default") curW upgW
      = Except.ok ("out") := by
  refine ⟨rfl, ?_⟩
  exact upgradeCatalogData_idempotent (fun _ : String => JView.mk (fun _ => false) false)
    (fun c _ _ => c) yparseW (fun _ => ("out")) ("in") (".yaml") ("default") curW upgW
    (by decide) (fun _ _ _ => rfl) (fun _ _ _ => rfl) (fun _ _ _ _ _ _ => rfl)
    (by decide) ("out") rfl
